import Mathlib

set_option maxRecDepth 8192

deriving instance DecidableEq for Except

namespace SRGC

/-! Shallow embedding of the semantic-release-github-commit plugin:
`src/utils.ts` (token, repository-locator and identity resolution),
the GitHubClient commit-request construction, and the `prepare`
orchestrator. JavaScript strings are modelled as `String` backed by
`List Char`; the platform pieces the code calls (`new URL`, `String.replace`,
`String.split`, regex matches) are modelled by the explicit character-list
functions below. -/

/-- Split a character list at the first occurrence of `c`; `none` when `c`
does not occur. -/
def splitFirst (c : Char) : List Char → Option (List Char × List Char)
  | [] => none
  | x :: xs =>
    if x = c then some ([], xs)
    else
      match splitFirst c xs with
      | some (a, b) => some (x :: a, b)
      | none => none

/-- Split a character list at every occurrence of `c`; models JavaScript
`String.prototype.split` with a one-character separator. -/
def splitAll (c : Char) : List Char → List (List Char)
  | [] => [[]]
  | x :: xs =>
    if x = c then [] :: splitAll c xs
    else
      match splitAll c xs with
      | h :: t => (x :: h) :: t
      | [] => [[x]]

/-- Replace the first occurrence of `pat` by `rep`; models JavaScript
`String.prototype.replace` with a string pattern. -/
def replaceOnceL (pat rep : List Char) : List Char → List Char
  | [] => if pat = [] then rep else []
  | x :: xs =>
    if pat.isPrefixOf (x :: xs) then rep ++ (x :: xs).drop pat.length
    else x :: replaceOnceL pat rep xs

/-- Replace every occurrence of `pat` by `rep`, scanning left to right and
never rescanning the replacement; models `String.prototype.replace` with a
global regex whose pattern is a literal string. -/
def replaceAllL (pat rep : List Char) : List Char → List Char
  | [] => []
  | x :: xs =>
    if pat ≠ [] ∧ pat.isPrefixOf (x :: xs) then
      rep ++ replaceAllL pat rep (xs.drop (pat.length - 1))
    else x :: replaceAllL pat rep xs
termination_by l => l.length
decreasing_by
  · simp only [List.length_cons, List.length_drop]
    omega
  · simp only [List.length_cons]
    omega

def replaceOnce (pat rep s : String) : String := ⟨replaceOnceL pat.data rep.data s.data⟩

def replaceAll (pat rep s : String) : String := ⟨replaceAllL pat.data rep.data s.data⟩

/-- Structured error created by `createError(code, message)` in src/errors. -/
structure SRError where
  code : String
  message : String
deriving DecidableEq

structure Identity where
  name : String
  email : String
deriving DecidableEq

inductive BlobEncoding
  | utf8
  | base64
deriving DecidableEq

def BlobEncoding.str : BlobEncoding → String
  | .utf8 => "utf-8"
  | .base64 => "base64"

structure FileBlob where
  path : String
  content : String
  encoding : BlobEncoding
deriving DecidableEq

structure NextRelease where
  version : String
  gitTag : String
  gitHead : String
  notes : String
deriving DecidableEq

/-- A configured branch entry: a bare string or a `{ name }` structure. -/
inductive BranchEntry
  | str (s : String)
  | named (name : String)
deriving DecidableEq

structure Options where
  repositoryUrl : Option String
  branches : Option (List BranchEntry)

def Env := String → Option String

structure Ctx where
  env : Env
  options : Options
  nextRelease : Option NextRelease

structure RepoParts where
  owner : String
  repo : String
  host : String
deriving DecidableEq

structure RepoInfo where
  owner : String
  repo : String
  branch : String
  host : String
deriving DecidableEq

/-- JavaScript truthiness of a `string | undefined` value. -/
def truthy : Option String → Bool
  | some s => decide (s ≠ "")
  | none => false

/-- JavaScript `a || b` on `string | undefined` values. -/
def jsOr (a b : Option String) : Option String := if truthy a then a else b

def noAuthMessage : String :=
  "No GitHub authentication token found. Please provide GH_TOKEN, GITHUB_TOKEN environment variable, or githubToken in plugin config."

/-- src/utils.ts `getAuthToken`. -/
def getAuthToken (env : Env) (githubToken : Option String) : Except SRError String :=
  match jsOr (env "GH_TOKEN") (jsOr (env "GITHUB_TOKEN") githubToken) with
  | some t => if t = "" then .error ⟨"EGHNOAUTH", noAuthMessage⟩ else .ok t
  | none => .error ⟨"EGHNOAUTH", noAuthMessage⟩

def schemeChar (c : Char) : Bool := c.isAlphanum || c = '+' || c = '-' || c = '.'

/-- A syntactically valid URL scheme per the WHATWG URL standard: an ASCII
letter followed by letters, digits, `+`, `-` or `.`. -/
def validScheme : List Char → Bool
  | [] => false
  | c :: cs => c.isAlpha && cs.all schemeChar

def specialSchemes : List String := ["http", "https", "ws", "wss", "ftp", "file"]

structure UrlPartsL where
  hostname : List Char
  pathname : List Char
deriving DecidableEq

def notAuthorityEnd (c : Char) : Bool := !(c = '/' || c = '?' || c = '#')

def notQF (c : Char) : Bool := !(c = '?' || c = '#')

/-- Authority-plus-path parsing for URLs that carry a host, per the WHATWG
URL standard: the authority runs to the first `/`, `?` or `#`; userinfo ends
at the last `@`; a nonempty port must be all digits; the hostname is
lower-cased; an absent path serializes as `/`. -/
def parseAuthorityPath (r : List Char) : Option UrlPartsL :=
  let a := r.takeWhile notAuthorityEnd
  let rest := r.drop a.length
  let pathRaw := rest.takeWhile notQF
  let hostport := (splitAll '@' a).getLastD []
  let hp : List Char × List Char :=
    match splitFirst ':' hostport with
    | some (h, p) => (h, p)
    | none => (hostport, [])
  if hp.1 = [] then none
  else if !hp.2.all Char.isDigit then none
  else some ⟨hp.1.map Char.toLower, if pathRaw = [] then ['/'] else pathRaw⟩

/-- Model of the JavaScript `new URL(input)` constructor (no base URL),
returning the `hostname` and `pathname` fields that `parseRepositoryUrl`
reads; `none` models the thrown TypeError. Special schemes skip any run of
slashes before the authority; other schemes take an authority only after
`//` and otherwise an opaque path (with empty hostname). -/
def urlParse (l : List Char) : Option UrlPartsL :=
  match splitFirst ':' l with
  | none => none
  | some (sch, r) =>
    if validScheme sch then
      if specialSchemes.contains ⟨sch.map Char.toLower⟩ then
        parseAuthorityPath (r.dropWhile (fun c => c = '/'))
      else if r.take 2 = ['/', '/'] then
        parseAuthorityPath (r.drop 2)
      else some ⟨[], r.takeWhile notQF⟩
    else none

/-- Character class of the SCP-like fallback regex
`^([a-zA-Z0-9@._-]+):([^\/]+)\/([^\/?#]+)$` (first group). -/
def scpClass (c : Char) : Bool := c.isAlphanum || c = '@' || c = '.' || c = '_' || c = '-'

/-- Match of the SCP-like fallback regex: the first group runs to the first
colon and is drawn from `scpClass`; the remainder must be exactly
`group₂ / group₃` with `group₂` slash-free and `group₃` free of `/`, `?`, `#`. -/
def scpMatch (l : List Char) : Option (List Char × List Char × List Char) :=
  match splitFirst ':' l with
  | none => none
  | some (g1, rest) =>
    if g1 ≠ [] ∧ g1.all scpClass then
      match splitAll '/' rest with
      | [g2, g3] =>
        if g2 ≠ [] ∧ g3 ≠ [] ∧ g3.all notQF then some (g1, g2, g3) else none
      | _ => none
    else none

def gitSuffix : List Char := ['.', 'g', 'i', 't']

def endsGit (l : List Char) : Bool := decide (gitSuffix <:+ l)

/-- Model of `url.replace(/\.git$/, "")`. -/
def stripGitL (l : List Char) : List Char :=
  if endsGit l then l.take (l.length - 4) else l

/-- The part of src/utils.ts `parseRepositoryUrl` after the `.git` suffix has
been stripped, returning `(host, owner, repo)`; `none` models the thrown
ENOREPO error. The standard URL parse is attempted first; on failure the
SCP-like grammar, then the bare `owner/repo` grammar. -/
def parseSanitized (sanitized : List Char) : Option (List Char × List Char × List Char) :=
  let hop : List Char × List Char × List Char :=
    match urlParse sanitized with
    | some u =>
      let parts := (splitAll '/' u.pathname).filter (fun s => !s.isEmpty)
      if parts.length ≥ 2 then
        (u.hostname, (parts[parts.length - 2]?).getD [], (parts[parts.length - 1]?).getD [])
      else (u.hostname, [], [])
    | none =>
      match scpMatch sanitized with
      | some (g1, o, r) =>
        let host :=
          match splitAll '@' g1 with
          | [h] => h
          | _ :: h :: _ => h
          | [] => []
        (host, o, r)
      | none =>
        match splitAll '/' sanitized with
        | [o, r] => if o ≠ [] ∧ r ≠ [] then ("github.com".data, o, r) else ([], [], [])
        | _ => ([], [], [])
  if hop.1 = [] ∨ hop.2.1 = [] ∨ hop.2.2 = [] then none else some hop

/-- src/utils.ts `parseRepositoryUrl` over character lists: strip a trailing
`.git`, then parse. -/
def parseRepoL (l : List Char) : Option (List Char × List Char × List Char) :=
  parseSanitized (stripGitL l)

/-- src/utils.ts `parseRepositoryUrl`. -/
def parseRepositoryUrl (url : String) : Except SRError RepoParts :=
  match parseRepoL url.data with
  | some (h, o, r) => .ok ⟨⟨o⟩, ⟨r⟩, ⟨h⟩⟩
  | none => .error ⟨"ENOREPO", "Unable to parse repository URL: " ++ url⟩

def noRepoMessage : String := "No repository URL found in semantic-release config"

def noBranchMessage : String :=
  "Unable to detect branch name from CI environment or semantic-release config"

/-- src/utils.ts `getRepoInfo`: parse the configured repository URL, then
resolve the branch from GITHUB_REF (with `refs/heads/` replaced), GIT_BRANCH
(with `origin/` replaced), BRANCH_NAME, and finally the first configured
branch entry. -/
def getRepoInfo (ctx : Ctx) : Except SRError RepoInfo :=
  match ctx.options.repositoryUrl with
  | none => .error ⟨"ENOREPO", noRepoMessage⟩
  | some u =>
    if u = "" then .error ⟨"ENOREPO", noRepoMessage⟩
    else
      match parseRepositoryUrl u with
      | .error e => .error e
      | .ok p =>
        let branch0 :=
          jsOr ((ctx.env "GITHUB_REF").map (replaceOnce "refs/heads/" ""))
            (jsOr ((ctx.env "GIT_BRANCH").map (replaceOnce "origin/" ""))
              (ctx.env "BRANCH_NAME"))
        let branch :=
          if truthy branch0 then branch0
          else
            match ctx.options.branches with
            | some (e :: _) => some (match e with | .str s => s | .named n => n)
            | _ => branch0
        match branch with
        | some b =>
          if b = "" then .error ⟨"ENOBRANCH", noBranchMessage⟩
          else .ok ⟨p.owner, p.repo, b, p.host⟩
        | none => .error ⟨"ENOBRANCH", noBranchMessage⟩

inductive Role
  | author
  | committer
deriving DecidableEq

def Role.upper : Role → String
  | .author => "AUTHOR"
  | .committer => "COMMITTER"

def botName : String := "semantic-release-bot"

def botEmail : String := "semantic-release-bot@martynus.net"

/-- src/utils.ts `getGitIdentity`: config value over role-specific
environment variable per field, the semantic-release default bot identity
suppressed, and both fields required to be truthy. -/
def getGitIdentity (env : Env) (role : Role) (configName configEmail : Option String) :
    Option Identity :=
  let name := jsOr configName (env ("GIT_" ++ role.upper ++ "_NAME"))
  let email := jsOr configEmail (env ("GIT_" ++ role.upper ++ "_EMAIL"))
  if name = some botName ∧ email = some botEmail then none
  else
    match name, email with
    | some n, some e => if n ≠ "" ∧ e ≠ "" then some ⟨n, e⟩ else none
    | _, _ => none

inductive ParamValue
  | s (v : String)
  | strs (v : List String)
  | ident (v : Identity)
deriving DecidableEq

/-- The request object built by `GitHubClient.createCommit` (src/github.ts):
the five base fields are always present; `author` and `committer` are added
to the object only when the corresponding optional argument is provided. -/
def buildCommitParams (owner repo message tree : String) (parents : List String)
    (author committer : Option Identity) : List (String × ParamValue) :=
  let base := [("owner", ParamValue.s owner), ("repo", ParamValue.s repo),
               ("message", ParamValue.s message), ("tree", ParamValue.s tree),
               ("parents", ParamValue.strs parents)]
  let withAuthor :=
    match author with
    | some a => base ++ [("author", ParamValue.ident a)]
    | none => base
  match committer with
  | some c => withAuthor ++ [("committer", ParamValue.ident c)]
  | none => withAuthor

/-- One GitHubClient method invocation, with the arguments the orchestrator
passed. -/
inductive ApiCall
  | getRef (owner repo branch : String)
  | getCommit (owner repo sha : String)
  | createBlob (owner repo content : String) (encoding : BlobEncoding)
  | createTree (owner repo baseTree : String) (entries : List (String × String))
  | createCommit (owner repo message tree : String) (parents : List String)
      (author committer : Option Identity)
  | updateRef (owner repo branch sha : String) (force : Bool)
deriving DecidableEq

def ApiCall.isCreateBlob : ApiCall → Bool
  | .createBlob .. => true
  | _ => false

def ApiCall.isCreateTree : ApiCall → Bool
  | .createTree .. => true
  | _ => false

def ApiCall.isCreateCommit : ApiCall → Bool
  | .createCommit .. => true
  | _ => false

def ApiCall.isUpdateRef : ApiCall → Bool
  | .updateRef .. => true
  | _ => false

/-- The remote object store, as the deterministic content-addressed oracle the
successful remote calls read: the ref head, each commit's tree id, and the ids
assigned to created blobs, trees and commits. Total functions model runs in
which no remote call fails. -/
structure Remote where
  refSha : String
  commitTreeOf : String → String
  blobShaOf : String → BlobEncoding → String
  treeShaOf : String → List (String × String) → String
  commitShaOf : String → String → List String → Option Identity → Option Identity → String

/-- The external collaborators of one `prepare` run: the File Resolver output,
the File Reader output, the remote oracle, and whether the post-publish local
git fetch/reset succeeds. -/
structure PrepareDeps where
  remote : Remote
  filePaths : List String
  fileBlobs : List FileBlob
  syncOk : Bool

structure PluginConfig where
  files : List String
  githubToken : Option String := none
  commitMessage : Option String := none
  authorName : Option String := none
  authorEmail : Option String := none
  committerName : Option String := none
  committerEmail : Option String := none
  dryRun : Option Bool := none

inductive PrepResult
  | committed (sha : String)
  | skippedEmpty
  | skippedDryRun
  | skippedNoChange
deriving DecidableEq

structure PrepOut where
  result : PrepResult
  calls : List ApiCall
  logs : List String
  nextRelease : Option NextRelease
deriving DecidableEq

def defaultCommitTemplate : String := "chore(release): $\x7bnextRelease.version\x7d [skip ci]"

def tokVersion : String := "$\x7bnextRelease.version\x7d"

def tokGitTag : String := "$\x7bnextRelease.gitTag\x7d"

def tokGitHead : String := "$\x7bnextRelease.gitHead\x7d"

def tokNotes : String := "$\x7bnextRelease.notes\x7d"

/-- Commit-message composition in `prepare`: the configured template if
truthy, else the built-in default; when release metadata is present the four
template variables are globally substituted, in the source's order. -/
def composeCommitMessage (commitMessage : Option String) (nextRelease : Option NextRelease) :
    String :=
  let template :=
    match commitMessage with
    | some m => if m = "" then defaultCommitTemplate else m
    | none => defaultCommitTemplate
  match nextRelease with
  | some r =>
    replaceAll tokNotes r.notes
      (replaceAll tokGitHead r.gitHead
        (replaceAll tokGitTag r.gitTag
          (replaceAll tokVersion r.version template)))
  | none => template

/-- The `(path, blobSha)` pairs sent to tree creation, one per file blob. -/
def blobEntries (remote : Remote) (fbs : List FileBlob) : List (String × String) :=
  fbs.map fun b => (b.path, remote.blobShaOf b.content b.encoding)

/-- The base tree id: the tree of the commit the ref currently points at. -/
def baseTreeOf (remote : Remote) : String := remote.commitTreeOf remote.refSha

/-- The id of the tree created by layering the blob entries over the base tree. -/
def newTreeOf (deps : PrepareDeps) : String :=
  deps.remote.treeShaOf (baseTreeOf deps.remote) (blobEntries deps.remote deps.fileBlobs)

def authorOf (cfg : PluginConfig) (ctx : Ctx) : Option Identity :=
  getGitIdentity ctx.env .author cfg.authorName cfg.authorEmail

def committerOf (cfg : PluginConfig) (ctx : Ctx) : Option Identity :=
  getGitIdentity ctx.env .committer cfg.committerName cfg.committerEmail

/-- The id of the commit created over the new tree with the prior head as the
single parent. -/
def newCommitShaOf (cfg : PluginConfig) (ctx : Ctx) (deps : PrepareDeps) : String :=
  deps.remote.commitShaOf (composeCommitMessage cfg.commitMessage ctx.nextRelease)
    (newTreeOf deps) [deps.remote.refSha] (authorOf cfg ctx) (committerOf cfg ctx)

def dryRunLogs (fbs : List FileBlob) : List String :=
  ["[DRY RUN] Would commit the following files:"]
    ++ fbs.map (fun b => "  - " ++ b.path ++ " (" ++ b.encoding.str ++ ")")
    ++ ["[DRY RUN] Skipping actual commit creation"]

/-- Steps 5-15 of the orchestrator (src/prepare.ts after the dry-run check):
read ref, read commit, create blobs, create tree, idempotency check, compose
message, resolve identities, create commit, update ref, local sync, write the
new head back into the release metadata. -/
def commitPhase (cfg : PluginConfig) (ctx : Ctx) (deps : PrepareDeps) (info : RepoInfo)
    (logs : List String) : Except SRError PrepOut :=
  let headSha := deps.remote.refSha
  let baseTreeSha := baseTreeOf deps.remote
  let entries := blobEntries deps.remote deps.fileBlobs
  let treeSha := newTreeOf deps
  let callsPre :=
    [ApiCall.getRef info.owner info.repo info.branch,
     ApiCall.getCommit info.owner info.repo headSha]
    ++ deps.fileBlobs.map (fun b => ApiCall.createBlob info.owner info.repo b.content b.encoding)
    ++ [ApiCall.createTree info.owner info.repo baseTreeSha entries]
  let logs := logs ++
    ["Getting current ref for branch " ++ info.branch ++ "...",
     "Current commit: " ++ headSha,
     "Base tree: " ++ baseTreeSha,
     "Created tree: " ++ treeSha]
  if treeSha = baseTreeSha then
    .ok ⟨.skippedNoChange, callsPre,
      logs ++ ["No changes detected - tree is identical to base tree. Skipping commit."],
      ctx.nextRelease⟩
  else
    let message := composeCommitMessage cfg.commitMessage ctx.nextRelease
    let commitSha := newCommitShaOf cfg ctx deps
    let calls := callsPre ++
      [ApiCall.createCommit info.owner info.repo message treeSha [headSha]
         (authorOf cfg ctx) (committerOf cfg ctx),
       ApiCall.updateRef info.owner info.repo info.branch commitSha false]
    if deps.syncOk then
      .ok ⟨.committed commitSha, calls,
        logs ++ ["Created commit: " ++ commitSha, "Local repository updated to " ++ commitSha],
        ctx.nextRelease.map fun nr => { nr with gitHead := commitSha }⟩
    else .error ⟨"ELOCALSYNC", "Failed to fetch new commit into local repository"⟩

/-- Steps 2-4 of the orchestrator: empty-resolution short-circuit, file
reading, dry-run short-circuit. -/
def prepareWithInfo (cfg : PluginConfig) (ctx : Ctx) (deps : PrepareDeps) (info : RepoInfo) :
    Except SRError PrepOut :=
  let logs := ["Preparing to commit files to " ++ info.owner ++ "/" ++ info.repo ++ ":" ++
    info.branch]
  let logs := logs ++
    (if info.host = "github.com" then []
     else ["Using custom GitHub API URL: https://" ++ info.host ++ "/api/v3"])
  let logs := logs ++ ["Resolving file patterns: " ++ String.intercalate ", " cfg.files]
  if deps.filePaths.length = 0 then
    .ok ⟨.skippedEmpty, [],
      logs ++ ["No files matched the provided patterns - skipping commit"], ctx.nextRelease⟩
  else
    let logs := logs ++
      ["Resolved " ++ toString deps.filePaths.length ++ " file(s): " ++
         String.intercalate ", " deps.filePaths,
       "Reading file contents..."]
    if cfg.dryRun.getD false then
      .ok ⟨.skippedDryRun, [], logs ++ dryRunLogs deps.fileBlobs, ctx.nextRelease⟩
    else commitPhase cfg ctx deps info logs

/-- The `prepare` lifecycle step (src/prepare.ts): token resolution, locator
resolution, then the orchestrator pipeline over the collaborators in `deps`. -/
def prepare (cfg : PluginConfig) (ctx : Ctx) (deps : PrepareDeps) : Except SRError PrepOut :=
  match getAuthToken ctx.env cfg.githubToken with
  | .error e => .error e
  | .ok _ =>
    match getRepoInfo ctx with
    | .error e => .error e
    | .ok info => prepareWithInfo cfg ctx deps info

/-! Concrete fixtures, mirroring the repository's test setup. -/

def envMain : Env := fun k => if k = "GH_TOKEN" then some "tok" else none

def ctxMain : Ctx :=
  ⟨envMain, ⟨some "https://github.com/owner/repo.git", some [.str "main"]⟩,
   some ⟨"1.0.0", "v1.0.0", "abc123", "notes"⟩⟩

def remoteMain : Remote :=
  ⟨"abc123", fun _ => "tree123", fun _ _ => "blob123", fun _ _ => "newtree456",
   fun _ _ _ _ _ => "commit456"⟩

def depsMain : PrepareDeps :=
  ⟨remoteMain, ["dist/index.js", "CHANGELOG.md"],
   [⟨"dist/index.js", "console", .utf8⟩, ⟨"CHANGELOG.md", "# Changelog", .utf8⟩], true⟩

def infoMain : RepoInfo := ⟨"owner", "repo", "main", "github.com"⟩

def envBot : Env := fun k =>
  if k = "GIT_AUTHOR_NAME" then some botName
  else if k = "GIT_AUTHOR_EMAIL" then some botEmail
  else none

/-- A context with the fixture repository URL and the given environment and
configured branch list, for branch-resolution statements. -/
def ctxBr (env : Env) (branches : Option (List BranchEntry)) : Ctx :=
  ⟨env, ⟨some "https://github.com/owner/repo.git", branches⟩, none⟩

def envRef : Env := fun k => if k = "GITHUB_REF" then some "refs/heads/main" else none

/-! Helper lemmas about the character-list operations. -/

theorem strData (a b : String) : (a ++ b).data = a.data ++ b.data := rfl

theorem strMk (l : List Char) : (String.mk l).data = l := rfl

theorem splitFirst_not_mem {c : Char} {l : List Char} (h : c ∉ l) : splitFirst c l = none := by
  induction l with
  | nil => rfl
  | cons x xs ih =>
    simp only [List.mem_cons, not_or] at h
    simp [splitFirst, h.1, ih h.2, Ne.symm h.1]

theorem splitFirst_append {c : Char} {a b : List Char} (h : c ∉ a) :
    splitFirst c (a ++ c :: b) = some (a, b) := by
  induction a with
  | nil => simp [splitFirst]
  | cons x xs ih =>
    simp only [List.mem_cons, not_or] at h
    simp [splitFirst, Ne.symm h.1, ih h.2]

theorem splitAll_not_mem {c : Char} {l : List Char} (h : c ∉ l) : splitAll c l = [l] := by
  induction l with
  | nil => rfl
  | cons x xs ih =>
    simp only [List.mem_cons, not_or] at h
    simp [splitAll, Ne.symm h.1, ih h.2]

theorem splitAll_ne_nil (c : Char) (l : List Char) : splitAll c l ≠ [] := by
  induction l with
  | nil => simp [splitAll]
  | cons x xs ih =>
    simp only [splitAll]
    split
    · simp
    · split
      · simp
      · simp

theorem splitAll_append {c : Char} {a b : List Char} (h : c ∉ a) :
    splitAll c (a ++ c :: b) = a :: splitAll c b := by
  induction a with
  | nil => simp [splitAll]
  | cons x xs ih =>
    simp only [List.mem_cons, not_or] at h
    have ih2 : splitAll c (List.append xs (c :: b)) = xs :: splitAll c b := ih h.2
    simp only [List.cons_append, splitAll]
    rw [if_neg (Ne.symm h.1)]
    rw [ih2]

theorem isPrefixOf_append_self (l t : List Char) : l.isPrefixOf (l ++ t) = true := by
  induction l with
  | nil => simp [List.isPrefixOf]
  | cons x xs ih => simp [List.isPrefixOf, ih]

theorem replaceOnceL_self (pat rep t : List Char) :
    replaceOnceL pat rep (pat ++ t) = rep ++ t := by
  cases pat with
  | nil =>
    cases t with
    | nil => simp [replaceOnceL]
    | cons x xs => simp [replaceOnceL, List.isPrefixOf]
  | cons p ps =>
    have hpre := isPrefixOf_append_self (p :: ps) t
    show replaceOnceL (p :: ps) rep (p :: (ps ++ t)) = rep ++ t
    rw [replaceOnceL, if_pos (show (p :: ps).isPrefixOf (p :: (ps ++ t)) = true from hpre)]
    exact congrArg (rep ++ ·) (List.drop_left (p :: ps) t)

theorem replaceOnce_self (pat b : String) : replaceOnce pat "" (pat ++ b) = b := by
  simp only [replaceOnce, strData]
  rw [replaceOnceL_self]
  rfl

theorem takeWhile_all {p : Char → Bool} {l : List Char} (h : ∀ x ∈ l, p x = true) :
    l.takeWhile p = l := by
  induction l with
  | nil => rfl
  | cons x xs ih =>
    simp only [List.takeWhile_cons, h x (by simp), if_true]
    rw [ih fun y hy => h y (by simp [hy])]

theorem takeWhile_append_stop {p : Char → Bool} {a : List Char} {y : Char} {b : List Char}
    (ha : ∀ x ∈ a, p x = true) (hy : p y = false) : (a ++ y :: b).takeWhile p = a := by
  induction a with
  | nil => simp [List.takeWhile_cons, hy]
  | cons x xs ih =>
    simp only [List.cons_append, List.takeWhile_cons, ha x (by simp), if_true]
    rw [ih fun z hz => ha z (by simp [hz])]

theorem drop_append_le {α : Type} : ∀ (n : ℕ) (a b : List α), n ≤ a.length →
    (a ++ b).drop n = a.drop n ++ b := by
  intro n
  induction n with
  | zero => simp
  | succ m ih =>
    intro a b h
    cases a with
    | nil => simp at h
    | cons x xs =>
      simp only [List.cons_append, List.drop_succ_cons]
      exact ih xs b (by simpa using h)

theorem suffix_total {α : Type} {l₁ l₂ l₃ : List α} (h₁ : l₁ <:+ l₃) (h₂ : l₂ <:+ l₃) :
    l₁ <:+ l₂ ∨ l₂ <:+ l₁ := by
  obtain ⟨a, ha⟩ := h₁
  obtain ⟨b, hb⟩ := h₂
  have hab : a ++ l₁ = b ++ l₂ := ha.trans hb.symm
  have hlen : a.length + l₁.length = b.length + l₂.length := by
    have := congrArg List.length hab
    simpa [List.length_append] using this
  rcases le_total l₁.length l₂.length with hle | hle
  · left
    refine ⟨a.drop b.length, ?_⟩
    have hb_le : b.length ≤ a.length := by omega
    have := congrArg (List.drop b.length) hab
    rwa [drop_append_le b.length a l₁ hb_le, List.drop_left] at this
  · right
    refine ⟨b.drop a.length, ?_⟩
    have ha_le : a.length ≤ b.length := by omega
    have := congrArg (List.drop a.length) hab.symm
    rwa [drop_append_le a.length b l₂ ha_le, List.drop_left] at this

theorem suffix_cons_split {α : Type} {l b : List α} {x : α} (h : l <:+ x :: b) :
    l = x :: b ∨ l <:+ b := by
  obtain ⟨t, ht⟩ := h
  cases t with
  | nil => left; simpa using ht
  | cons y ys =>
    right
    refine ⟨ys, ?_⟩
    simpa using congrArg List.tail ht

theorem not_suffix_sep {g xs repo : List Char} {sep : Char} (hsep : sep ∉ g)
    (hrepo : ¬ (g <:+ repo)) : ¬ (g <:+ (xs ++ sep :: repo)) := by
  intro h
  have hsr : sep :: repo <:+ xs ++ sep :: repo := ⟨xs, rfl⟩
  rcases suffix_total h hsr with hc | hc
  · rcases suffix_cons_split hc with he | he
    · exact hsep (by rw [he]; simp)
    · exact hrepo he
  · exact hsep (hc.sublist.subset (by simp))

theorem stripGit_of_suffix (x : List Char) : stripGitL (x ++ gitSuffix) = x := by
  have : endsGit (x ++ gitSuffix) = true := by
    unfold endsGit
    exact decide_eq_true ⟨x, rfl⟩
  simp only [stripGitL, this, if_true, List.length_append]
  rw [show x.length + gitSuffix.length - 4 = x.length from by simp [gitSuffix]]
  exact List.take_left x gitSuffix

theorem stripGit_id {l : List Char} (h : ¬ (gitSuffix <:+ l)) : stripGitL l = l := by
  have : endsGit l = false := by simpa [endsGit] using h
  simp [stripGitL, this]

theorem filter_nonempty {segs : List (List Char)} (h : ∀ s ∈ segs, s ≠ []) :
    segs.filter (fun s => !s.isEmpty) = segs := by
  induction segs with
  | nil => rfl
  | cons s rest ih =>
    have hs : s.isEmpty = false := by
      cases s with
      | nil => exact absurd rfl (h [] (by simp))
      | cons a b => rfl
    simp only [List.filter_cons, hs, Bool.not_false, if_true]
    rw [ih fun t ht => h t (by simp [ht])]

theorem splitAll_flat {segs : List (List Char)} {a : List Char}
    (ha : '/' ∉ a) (hsegs : ∀ s ∈ segs, '/' ∉ s) :
    splitAll '/' (a ++ (segs.map (fun s => '/' :: s)).flatten) = a :: segs := by
  induction segs generalizing a with
  | nil => simpa using splitAll_not_mem ha
  | cons s rest ih =>
    simp only [List.map_cons, List.flatten_cons]
    rw [show a ++ ('/' :: s ++ ((rest.map (fun s => '/' :: s)).flatten)) =
      a ++ '/' :: (s ++ (rest.map (fun s => '/' :: s)).flatten) from by simp]
    rw [splitAll_append ha]
    rw [ih (hsegs s (by simp)) (fun t ht => hsegs t (by simp [ht]))]

theorem countP_map_true {α β : Type} {p : β → Bool} {f : α → β} {l : List α}
    (h : ∀ x ∈ l, p (f x) = true) : (l.map f).countP p = l.length := by
  induction l with
  | nil => rfl
  | cons x xs ih =>
    simp only [List.map_cons, List.countP_cons, h x (by simp), if_true, List.length_cons]
    rw [ih fun y hy => h y (by simp [hy])]

theorem countP_map_false {α β : Type} {p : β → Bool} {f : α → β} {l : List α}
    (h : ∀ x ∈ l, p (f x) = false) : (l.map f).countP p = 0 := by
  induction l with
  | nil => rfl
  | cons x xs ih =>
    simp only [List.map_cons, List.countP_cons, h x (by simp)]
    simpa using ih fun y hy => h y (by simp [hy])

theorem jsOr_none (b : Option String) : jsOr none b = b := rfl

theorem jsOr_some {s : String} (h : s ≠ "") (b : Option String) : jsOr (some s) b = some s := by
  simp [jsOr, truthy, h]

theorem scpClass_spec {c : Char} (h : scpClass c = true) :
    c ≠ ':' ∧ c ≠ '/' ∧ c ≠ '?' ∧ c ≠ '#' := by
  refine ⟨?_, ?_, ?_, ?_⟩ <;> rintro rfl <;> exact absurd h (by decide)

/-- SCP-shaped input with a `user@` prefix: the URL parse fails (the scheme
candidate contains `@`), and the SCP regex yields the full first group. -/
theorem parseSanitized_scp_user
    (user host owner repo : List Char)
    (huser : ∀ c ∈ user, scpClass c = true ∧ c ≠ '@')
    (hhost : ∀ c ∈ host, scpClass c = true ∧ c ≠ '@') (hhostne : host ≠ [])
    (howner : ∀ c ∈ owner, c ≠ '/' ∧ notQF c = true) (hownerne : owner ≠ [])
    (hrepo : ∀ c ∈ repo, c ≠ '/' ∧ notQF c = true) (hrepone : repo ≠ []) :
    parseSanitized ((user ++ '@' :: host) ++ ':' :: (owner ++ '/' :: repo)) =
      some (host, owner, repo) := by
  have hA : (':' : Char) ∉ user ++ '@' :: host := by
    intro hmem
    rcases List.mem_append.mp hmem with hc | hc
    · exact absurd (huser _ hc).1 (by decide)
    · rcases List.mem_cons.mp hc with hc | hc
      · exact absurd hc (by decide)
      · exact absurd (hhost _ hc).1 (by decide)
  have hsplit : splitFirst ':' ((user ++ '@' :: host) ++ ':' :: (owner ++ '/' :: repo)) =
      some (user ++ '@' :: host, owner ++ '/' :: repo) := splitFirst_append hA
  have hvs : validScheme (user ++ '@' :: host) = false := by
    cases user with
    | nil => simp [validScheme, show ('@' : Char).isAlpha = false from by decide]
    | cons u us =>
      simp [validScheme, List.all_append, show schemeChar '@' = false from by decide]
  have hsplitR : splitFirst ':' (user ++ '@' :: (host ++ ':' :: (owner ++ '/' :: repo))) =
      some (user ++ '@' :: host, owner ++ '/' :: repo) := by
    simpa using hsplit
  have hurl : urlParse ((user ++ '@' :: host) ++ ':' :: (owner ++ '/' :: repo)) = none := by
    simp [urlParse, hsplitR, hvs]
  have hslash : splitAll '/' (owner ++ '/' :: repo) = [owner, repo] := by
    rw [splitAll_append (fun h => (howner _ h).1 rfl),
      splitAll_not_mem (fun h => (hrepo _ h).1 rfl)]
  have hne : user ++ '@' :: host ≠ [] := by simp
  have hall : (user ++ '@' :: host).all scpClass = true := by
    rw [List.all_eq_true]
    intro c hc
    rcases List.mem_append.mp hc with h | h
    · exact (huser _ h).1
    · rcases List.mem_cons.mp h with h | h
      · subst h; decide
      · exact (hhost _ h).1
  have hrall : repo.all notQF = true := List.all_eq_true.mpr fun c hc => (hrepo c hc).2
  have hscp : scpMatch ((user ++ '@' :: host) ++ ':' :: (owner ++ '/' :: repo)) =
      some (user ++ '@' :: host, owner, repo) := by
    simp only [scpMatch, hsplit, hslash]
    rw [if_pos ⟨hne, hall⟩, if_pos ⟨hownerne, hrepone, hrall⟩]
  have hat : splitAll '@' (user ++ '@' :: host) = [user, host] := by
    rw [splitAll_append (fun h => (huser _ h).2 rfl),
      splitAll_not_mem (fun h => (hhost _ h).2 rfl)]
  simp only [parseSanitized, hurl, hscp, hat]
  rw [if_neg (by simp [hhostne, hownerne, hrepone])]

/-- SCP-shaped input without `user@` whose host is not a syntactically valid
URL scheme: the URL parse fails and the SCP regex succeeds. -/
theorem parseSanitized_scp_bare_invalid
    (host owner repo : List Char)
    (hhost : ∀ c ∈ host, scpClass c = true ∧ c ≠ '@') (hhostne : host ≠ [])
    (howner : ∀ c ∈ owner, c ≠ '/' ∧ notQF c = true) (hownerne : owner ≠ [])
    (hrepo : ∀ c ∈ repo, c ≠ '/' ∧ notQF c = true) (hrepone : repo ≠ [])
    (hvs : validScheme host = false) :
    parseSanitized (host ++ ':' :: (owner ++ '/' :: repo)) = some (host, owner, repo) := by
  have hcolon : (':' : Char) ∉ host := fun h => absurd (hhost _ h).1 (by decide)
  have hsplit : splitFirst ':' (host ++ ':' :: (owner ++ '/' :: repo)) =
      some (host, owner ++ '/' :: repo) := splitFirst_append hcolon
  have hurl : urlParse (host ++ ':' :: (owner ++ '/' :: repo)) = none := by
    simp [urlParse, hsplit, hvs]
  have hslash : splitAll '/' (owner ++ '/' :: repo) = [owner, repo] := by
    rw [splitAll_append (fun h => (howner _ h).1 rfl),
      splitAll_not_mem (fun h => (hrepo _ h).1 rfl)]
  have hall : host.all scpClass = true := List.all_eq_true.mpr fun c hc => (hhost c hc).1
  have hrall : repo.all notQF = true := List.all_eq_true.mpr fun c hc => (hrepo c hc).2
  have hscp : scpMatch (host ++ ':' :: (owner ++ '/' :: repo)) = some (host, owner, repo) := by
    simp only [scpMatch, hsplit, hslash]
    rw [if_pos ⟨hhostne, hall⟩, if_pos ⟨hownerne, hrepone, hrall⟩]
  have hat : splitAll '@' host = [host] := splitAll_not_mem (fun h => (hhost _ h).2 rfl)
  simp only [parseSanitized, hurl, hscp, hat]
  rw [if_neg (by simp [hhostne, hownerne, hrepone])]

/-- SCP-shaped input without `user@` whose host is a syntactically valid URL
scheme and not a special one: the URL parse succeeds as scheme plus opaque
path, the hostname is empty, and the whole parse signals ENOREPO. -/
theorem parseSanitized_scp_bare_valid
    (host owner repo : List Char)
    (hhost : ∀ c ∈ host, scpClass c = true ∧ c ≠ '@')
    (howner : ∀ c ∈ owner, c ≠ '/' ∧ notQF c = true) (hownerne : owner ≠ [])
    (hrepo : ∀ c ∈ repo, c ≠ '/' ∧ notQF c = true) (hrepone : repo ≠ [])
    (hvs : validScheme host = true)
    (hns : specialSchemes.contains ⟨host.map Char.toLower⟩ = false) :
    parseSanitized (host ++ ':' :: (owner ++ '/' :: repo)) = none := by
  have hcolon : (':' : Char) ∉ host := fun h => absurd (hhost _ h).1 (by decide)
  have hsplit : splitFirst ':' (host ++ ':' :: (owner ++ '/' :: repo)) =
      some (host, owner ++ '/' :: repo) := splitFirst_append hcolon
  have htake : (owner ++ '/' :: repo).take 2 ≠ ['/', '/'] := by
    cases owner with
    | nil => exact absurd rfl hownerne
    | cons o os =>
      intro hEq
      rw [List.cons_append, List.take_succ_cons] at hEq
      injection hEq with h1 h2
      exact (howner o (by simp)).1 h1
  have hpath : (owner ++ '/' :: repo).takeWhile notQF = owner ++ '/' :: repo := by
    apply takeWhile_all
    intro c hc
    rcases List.mem_append.mp hc with h | h
    · exact (howner _ h).2
    · rcases List.mem_cons.mp h with h | h
      · subst h; decide
      · exact (hrepo _ h).2
  have hns2 : (⟨host.map Char.toLower⟩ : String) ∉ specialSchemes := by simpa using hns
  have hurl : urlParse (host ++ ':' :: (owner ++ '/' :: repo)) =
      some ⟨[], owner ++ '/' :: repo⟩ := by
    simp [urlParse, hsplit, hvs, hns2, htake, hpath]
  have hslash : splitAll '/' (owner ++ '/' :: repo) = [owner, repo] := by
    rw [splitAll_append (fun h => (howner _ h).1 rfl),
      splitAll_not_mem (fun h => (hrepo _ h).1 rfl)]
  simp [parseSanitized, hurl, hslash, filter_nonempty
    (show ∀ s ∈ [owner, repo], s ≠ [] by
      intro s hs
      rcases List.mem_cons.mp hs with h | h
      · subst h; exact hownerne
      · rcases List.mem_cons.mp h with h | h
        · subst h; exact hrepone
        · simp at h)]

theorem dropWhile_slash2 {x : Char} (hx : x ≠ '/') (xs : List Char) :
    ('/' :: '/' :: x :: xs).dropWhile (fun c => decide (c = '/')) = x :: xs := by
  simp [List.dropWhile_cons, hx]

/-- Evaluation of the authority-plus-path parser on `authority / path` input:
userinfo is cut at the last `@`, an absent port passes the digit check, and
the hostname is lower-cased. -/
theorem parseAuthorityPath_eval (auth rest hostp : List Char)
    (hauth : ∀ c ∈ auth, notAuthorityEnd c = true)
    (hlast : (splitAll '@' auth).getLastD [] = hostp)
    (hcolon : (':' : Char) ∉ hostp) (hhostne : hostp ≠ [])
    (hrest : ∀ c ∈ rest, notQF c = true) :
    parseAuthorityPath (auth ++ '/' :: rest) = some ⟨hostp.map Char.toLower, '/' :: rest⟩ := by
  have ha : (auth ++ '/' :: rest).takeWhile notAuthorityEnd = auth :=
    takeWhile_append_stop hauth (by decide)
  have hdrop : (auth ++ '/' :: rest).drop auth.length = '/' :: rest := List.drop_left auth _
  have hpath : ('/' :: rest).takeWhile notQF = '/' :: rest := by
    apply takeWhile_all
    intro c hc
    rcases List.mem_cons.mp hc with h | h
    · subst h; decide
    · exact hrest c h
  have hsf : splitFirst ':' hostp = none := splitFirst_not_mem hcolon
  simp only [parseAuthorityPath, ha, hdrop, hpath, hlast, hsf]
  rw [if_neg hhostne]
  simp

/-- Evaluation of the URL model on an `https:` input. -/
theorem urlParse_https (tail : List Char) (u : UrlPartsL)
    (h : parseAuthorityPath (tail.dropWhile (fun c => decide (c = '/'))) = some u) :
    urlParse ("https".data ++ ':' :: tail) = some u := by
  have hsp := splitFirst_append (a := "https".data) (b := tail)
    (show (':' : Char) ∉ "https".data from by decide)
  simp only [urlParse, hsp]
  rw [if_pos (show validScheme "https".data = true from by decide)]
  rw [if_pos (show specialSchemes.contains ⟨"https".data.map Char.toLower⟩ = true from by decide)]
  exact h

theorem notAuthorityEnd_of {c : Char} (h1 : c ≠ '/') (h2 : c ≠ '?') (h3 : c ≠ '#') :
    notAuthorityEnd c = true := by
  simp [notAuthorityEnd, h1, h2, h3]

/-- A URL with `x-access-token:` credentials in its authority: the userinfo is
cut at the `@` and the parse result only depends on the host and path. -/
theorem parseSanitized_creds (token : List Char)
    (htok : ∀ c ∈ token, c ≠ '@' ∧ c ≠ '/' ∧ c ≠ '?' ∧ c ≠ '#') :
    parseSanitized ("https".data ++ ':' :: '/' :: '/' ::
        ((("x-access-token:".data ++ token) ++ '@' :: "github.com".data) ++
          '/' :: ("owner".data ++ '/' :: "repo".data))) =
      some ("github.com".data, "owner".data, "repo".data) := by
  have hPA : parseAuthorityPath ((("x-access-token:".data ++ token) ++ '@' :: "github.com".data) ++
      '/' :: ("owner".data ++ '/' :: "repo".data)) =
      some ⟨"github.com".data.map Char.toLower, '/' :: ("owner".data ++ '/' :: "repo".data)⟩ := by
    apply parseAuthorityPath_eval
    · intro c hc
      rcases List.mem_append.mp hc with h | h
      · rcases List.mem_append.mp h with h2 | h2
        · exact (show ∀ c ∈ "x-access-token:".data, notAuthorityEnd c = true from by decide) c h2
        · obtain ⟨_, h1, h2q, h3⟩ := htok c h2
          exact notAuthorityEnd_of h1 h2q h3
      · rcases List.mem_cons.mp h with h2 | h2
        · subst h2; decide
        · exact (show ∀ c ∈ "github.com".data, notAuthorityEnd c = true from by decide) c h2
    · rw [splitAll_append (c := '@') (by
        intro h
        rcases List.mem_append.mp h with h2 | h2
        · exact (show ('@' : Char) ∉ "x-access-token:".data from by decide) h2
        · exact (htok _ h2).1 rfl)]
      rw [splitAll_not_mem (show ('@' : Char) ∉ "github.com".data from by decide)]
      simp [List.getLastD]
    · decide
    · decide
    · decide
  have hshape : ((("x-access-token:".data ++ token) ++ '@' :: "github.com".data) ++
      '/' :: ("owner".data ++ '/' :: "repo".data)) = 'x' :: ("-access-token:".data ++
        (token ++ '@' :: ("github.com".data ++ '/' :: ("owner".data ++ '/' :: "repo".data)))) := by
    simp [show "x-access-token:".data = 'x' :: "-access-token:".data from rfl]
  have hdw : (('/' : Char) :: '/' :: ((("x-access-token:".data ++ token) ++
      '@' :: "github.com".data) ++ '/' :: ("owner".data ++ '/' :: "repo".data))).dropWhile
        (fun c => decide (c = '/')) =
      (("x-access-token:".data ++ token) ++ '@' :: "github.com".data) ++
        '/' :: ("owner".data ++ '/' :: "repo".data) := by
    rw [hshape]
    exact dropWhile_slash2 (by decide) _
  have hurl : urlParse ("https".data ++ ':' :: '/' :: '/' ::
      ((("x-access-token:".data ++ token) ++ '@' :: "github.com".data) ++
        '/' :: ("owner".data ++ '/' :: "repo".data))) =
      some ⟨"github.com".data.map Char.toLower, '/' :: ("owner".data ++ '/' :: "repo".data)⟩ := by
    apply urlParse_https
    rw [hdw]
    exact hPA
  simp only [parseSanitized, hurl]
  decide

/-- The standard-URL branch on `https://host/seg₁/…/segₙ` with at least two
path segments: the hostname is the lower-cased host and the path splits into
the segments. -/
theorem parseSanitized_https (host : List Char) (pre : List (List Char)) (b c : List Char)
    (hhost : ∀ ch ∈ host, ch ≠ '/' ∧ ch ≠ '?' ∧ ch ≠ '#' ∧ ch ≠ '@' ∧ ch ≠ ':')
    (hhostne : host ≠ [])
    (hsegs : ∀ s ∈ pre ++ [b, c], s ≠ [] ∧ ∀ ch ∈ s, ch ≠ '/' ∧ notQF ch = true) :
    parseSanitized ("https".data ++ ':' :: '/' :: '/' ::
        (host ++ ((pre ++ [b, c]).map (fun s => '/' :: s)).flatten)) =
      some (host.map Char.toLower, b, c) := by
  obtain ⟨s1, r1, hsr⟩ : ∃ s1 r1, pre ++ [b, c] = s1 :: r1 := by
    cases pre with
    | nil => exact ⟨b, [c], rfl⟩
    | cons p ps => exact ⟨p, ps ++ [b, c], rfl⟩
  have hflat : ((pre ++ [b, c]).map (fun s => '/' :: s)).flatten =
      '/' :: (s1 ++ (r1.map (fun s => '/' :: s)).flatten) := by
    rw [hsr]
    simp
  have hs1 : s1 ∈ pre ++ [b, c] := by rw [hsr]; simp
  have hrest : ∀ ch ∈ s1 ++ (r1.map (fun s => '/' :: s)).flatten, notQF ch = true := by
    intro ch hch
    rcases List.mem_append.mp hch with h | h
    · exact ((hsegs s1 hs1).2 ch h).2
    · rw [List.mem_flatten] at h
      obtain ⟨l, hl, hcl⟩ := h
      rw [List.mem_map] at hl
      obtain ⟨s, hs, rfl⟩ := hl
      rcases List.mem_cons.mp hcl with rfl | hcs
      · decide
      · have hsmem : s ∈ pre ++ [b, c] := by rw [hsr]; exact List.mem_cons_of_mem _ hs
        exact ((hsegs s hsmem).2 ch hcs).2
  have hPA : parseAuthorityPath (host ++ '/' :: (s1 ++ (r1.map (fun s => '/' :: s)).flatten)) =
      some ⟨host.map Char.toLower, '/' :: (s1 ++ (r1.map (fun s => '/' :: s)).flatten)⟩ := by
    apply parseAuthorityPath_eval
    · intro ch hch
      obtain ⟨h1, h2, h3, _⟩ := hhost ch hch
      exact notAuthorityEnd_of h1 h2 h3
    · rw [splitAll_not_mem (fun h => (hhost _ h).2.2.2.1 rfl)]
      simp [List.getLastD]
    · exact fun h => (hhost _ h).2.2.2.2 rfl
    · exact hhostne
    · exact hrest
  have hdw : (('/' : Char) :: '/' ::
      (host ++ ((pre ++ [b, c]).map (fun s => '/' :: s)).flatten)).dropWhile
        (fun c => decide (c = '/')) =
      host ++ ((pre ++ [b, c]).map (fun s => '/' :: s)).flatten := by
    cases host with
    | nil => exact absurd rfl hhostne
    | cons h0 hs =>
      rw [List.cons_append]
      exact dropWhile_slash2 (hhost h0 (by simp)).1 _
  have hurl : urlParse ("https".data ++ ':' :: '/' :: '/' ::
      (host ++ ((pre ++ [b, c]).map (fun s => '/' :: s)).flatten)) =
      some ⟨host.map Char.toLower, '/' :: (s1 ++ (r1.map (fun s => '/' :: s)).flatten)⟩ := by
    apply urlParse_https
    rw [hdw, hflat]
    exact hPA
  have hsplitpath : splitAll '/' ('/' :: (s1 ++ (r1.map (fun s => '/' :: s)).flatten)) =
      [] :: (pre ++ [b, c]) := by
    rw [← hflat]
    simpa using @splitAll_flat (pre ++ [b, c]) [] (by simp)
      (fun s hs hch => ((hsegs s hs).2 _ hch).1 rfl)
  have hfil : ([] :: (pre ++ [b, c])).filter (fun s => !s.isEmpty) = pre ++ [b, c] := by
    rw [List.filter_cons_of_neg (by simp)]
    exact filter_nonempty (fun s hs => (hsegs s hs).1)
  have hget1 : (pre ++ [b, c])[(pre ++ [b, c]).length - 2]? = some b := by
    rw [show (pre ++ [b, c]).length - 2 = pre.length from by simp]
    rw [List.getElem?_append_right (le_refl pre.length)]
    simp
  have hget2 : (pre ++ [b, c])[(pre ++ [b, c]).length - 1]? = some c := by
    rw [show (pre ++ [b, c]).length - 1 = pre.length + 1 from by simp]
    rw [List.getElem?_append_right (by omega)]
    simp
  simp only [parseSanitized, hurl, hsplitpath, hfil]
  have hlen : (pre ++ [b, c]).length ≥ 2 := by
    simp only [List.length_append, List.length_cons, List.length_nil]
    omega
  rw [if_pos hlen, hget1, hget2]
  simp only [Option.getD_some]
  have hguard : ¬ (host.map Char.toLower = [] ∨ b = [] ∨ c = []) := by
    simp only [List.map_eq_nil_iff, not_or]
    exact ⟨hhostne, (hsegs b (by simp)).1, (hsegs c (by simp)).1⟩
  rw [if_neg hguard]

/-! Claim theorems. -/

/-- C3: when neither a resolved author nor a resolved committer identity is
present, the commit-creation request object contains no author field and no
committer field at all — its keys are exactly the five base ones; conversely,
a present identity is included in the request with its name/email pair. -/
theorem C3_createCommit_identity_omission :
    ∀ (owner repo message tree : String) (parents : List String),
      ((buildCommitParams owner repo message tree parents none none).lookup "author" = none ∧
       (buildCommitParams owner repo message tree parents none none).lookup "committer" = none ∧
       (buildCommitParams owner repo message tree parents none none).map Prod.fst =
         ["owner", "repo", "message", "tree", "parents"]) ∧
      (∀ (a : Identity) (committer : Option Identity),
        (buildCommitParams owner repo message tree parents (some a) committer).lookup "author" =
          some (ParamValue.ident a)) ∧
      (∀ (c : Identity) (author : Option Identity),
        (buildCommitParams owner repo message tree parents author (some c)).lookup "committer" =
          some (ParamValue.ident c)) := by
  intro owner repo message tree parents
  refine ⟨⟨?_, ?_, ?_⟩, ?_, ?_⟩
  · simp [buildCommitParams, List.lookup]
  · simp [buildCommitParams, List.lookup]
  · simp [buildCommitParams]
  · intro a committer
    cases committer <;> simp [buildCommitParams, List.lookup]
  · intro c author
    cases author <;> simp [buildCommitParams, List.lookup]

/-- C8: a run whose resolved file list is empty terminates successfully with
zero remote API calls of any kind. -/
theorem C8_empty_resolution (cfg : PluginConfig) (ctx : Ctx) (deps : PrepareDeps)
    (token : String) (info : RepoInfo)
    (hTok : getAuthToken ctx.env cfg.githubToken = .ok token)
    (hInfo : getRepoInfo ctx = .ok info)
    (hEmpty : deps.filePaths = []) :
    ∃ out, prepare cfg ctx deps = .ok out ∧ out.result = .skippedEmpty ∧ out.calls = [] ∧
      out.nextRelease = ctx.nextRelease := by
  simp only [prepare, hTok, hInfo, prepareWithInfo, hEmpty, List.length_nil]
  exact ⟨_, rfl, rfl, rfl, rfl⟩

/-- C8 witness: the fixture run with an empty resolved file list. -/
theorem C8_empty_resolution_witness :
    ∃ out, prepare { files := ["dist/**"] } ctxMain { depsMain with filePaths := [] } = .ok out ∧
      out.result = .skippedEmpty ∧ out.calls = [] ∧ out.nextRelease = ctxMain.nextRelease :=
  C8_empty_resolution { files := ["dist/**"] } ctxMain { depsMain with filePaths := [] }
    "tok" infoMain (by decide) (by decide) rfl

/-- C9: a dry-run with a non-empty resolved file list terminates successfully
with zero remote API calls, logs every file path with its encoding, and leaves
the release metadata untouched. -/
theorem C9_dry_run (cfg : PluginConfig) (ctx : Ctx) (deps : PrepareDeps)
    (token : String) (info : RepoInfo)
    (hTok : getAuthToken ctx.env cfg.githubToken = .ok token)
    (hInfo : getRepoInfo ctx = .ok info)
    (hne : deps.filePaths ≠ [])
    (hdry : cfg.dryRun.getD false = true) :
    ∃ out, prepare cfg ctx deps = .ok out ∧ out.result = .skippedDryRun ∧ out.calls = [] ∧
      (∀ b ∈ deps.fileBlobs, ("  - " ++ b.path ++ " (" ++ b.encoding.str ++ ")") ∈ out.logs) ∧
      out.nextRelease = ctx.nextRelease := by
  simp only [prepare, hTok, hInfo, prepareWithInfo]
  rw [if_neg (by simpa [List.length_eq_zero] using hne), hdry]
  refine ⟨_, rfl, rfl, rfl, ?_, rfl⟩
  intro b hb
  have hmem : ("  - " ++ b.path ++ " (" ++ b.encoding.str ++ ")") ∈ dryRunLogs deps.fileBlobs := by
    unfold dryRunLogs
    exact List.mem_append_left _ (List.mem_append_right _ (List.mem_map_of_mem _ hb))
  simp only [List.mem_cons, List.mem_append]
  tauto

/-- C9 witness: the fixture run in dry-run mode. -/
theorem C9_dry_run_witness :
    ∃ out, prepare { files := ["dist/**"], dryRun := some true } ctxMain depsMain = .ok out ∧
      out.result = .skippedDryRun ∧ out.calls = [] ∧
      (∀ b ∈ depsMain.fileBlobs,
        ("  - " ++ b.path ++ " (" ++ b.encoding.str ++ ")") ∈ out.logs) ∧
      out.nextRelease = ctxMain.nextRelease :=
  C9_dry_run { files := ["dist/**"], dryRun := some true } ctxMain depsMain
    "tok" infoMain (by decide) (by decide) (by decide) rfl

/-- C2: a run that reaches tree creation and finds the created tree id equal
to the base tree id terminates successfully without commit creation and
without a ref update, whatever the number of resolved files and blobs. -/
theorem C2_idempotency (cfg : PluginConfig) (ctx : Ctx) (deps : PrepareDeps)
    (token : String) (info : RepoInfo)
    (hTok : getAuthToken ctx.env cfg.githubToken = .ok token)
    (hInfo : getRepoInfo ctx = .ok info)
    (hne : deps.filePaths ≠ [])
    (hdry : cfg.dryRun.getD false = false)
    (hSame : newTreeOf deps = baseTreeOf deps.remote) :
    ∃ out, prepare cfg ctx deps = .ok out ∧ out.result = .skippedNoChange ∧
      out.calls.countP ApiCall.isCreateCommit = 0 ∧
      out.calls.countP ApiCall.isUpdateRef = 0 ∧
      out.nextRelease = ctx.nextRelease := by
  simp only [prepare, hTok, hInfo, prepareWithInfo]
  rw [if_neg (by simpa [List.length_eq_zero] using hne), hdry]
  simp only [Bool.false_eq_true, if_false, commitPhase, hSame, if_pos rfl]
  refine ⟨_, rfl, rfl, ?_, ?_, rfl⟩
  · simp [List.countP_append, List.countP_cons, ApiCall.isCreateCommit,
      countP_map_false (l := deps.fileBlobs)
        (f := fun b => ApiCall.createBlob info.owner info.repo b.content b.encoding)
        (p := ApiCall.isCreateCommit) (fun x _ => rfl)]
  · simp [List.countP_append, List.countP_cons, ApiCall.isUpdateRef,
      countP_map_false (l := deps.fileBlobs)
        (f := fun b => ApiCall.createBlob info.owner info.repo b.content b.encoding)
        (p := ApiCall.isUpdateRef) (fun x _ => rfl)]

/-- C2 witness: the fixture run whose created tree id equals the base tree id. -/
theorem C2_idempotency_witness :
    ∃ out,
      prepare { files := ["dist/**"] } ctxMain
          { depsMain with remote := { remoteMain with treeShaOf := fun _ _ => "tree123" } } =
        .ok out ∧
      out.result = .skippedNoChange ∧
      out.calls.countP ApiCall.isCreateCommit = 0 ∧
      out.calls.countP ApiCall.isUpdateRef = 0 ∧
      out.nextRelease = ctxMain.nextRelease :=
  C2_idempotency { files := ["dist/**"] } ctxMain
    { depsMain with remote := { remoteMain with treeShaOf := fun _ _ => "tree123" } }
    "tok" infoMain (by decide) (by decide) (by decide) rfl (by decide)

/-- C1: a run with a non-empty file set, dry-run off, a changed tree id and no
failing remote call performs blob-create once per resolved file, tree-create
once (layering the path/blob-id pairs over the base tree id), commit-create
once with parents exactly the prior head read from the ref, update-ref once
with the new commit id, and overwrites the release metadata's head-commit
field with the new commit id. -/
theorem C1_end_to_end (cfg : PluginConfig) (ctx : Ctx) (deps : PrepareDeps)
    (token : String) (info : RepoInfo)
    (hTok : getAuthToken ctx.env cfg.githubToken = .ok token)
    (hInfo : getRepoInfo ctx = .ok info)
    (hne : deps.filePaths ≠ [])
    (hdry : cfg.dryRun.getD false = false)
    (hlen : deps.fileBlobs.length = deps.filePaths.length)
    (hNe : newTreeOf deps ≠ baseTreeOf deps.remote)
    (hSync : deps.syncOk = true) :
    ∃ out, prepare cfg ctx deps = .ok out ∧
      out.calls.countP ApiCall.isCreateBlob = deps.filePaths.length ∧
      out.calls.countP ApiCall.isCreateTree = 1 ∧
      out.calls.countP ApiCall.isCreateCommit = 1 ∧
      out.calls.countP ApiCall.isUpdateRef = 1 ∧
      ApiCall.createTree info.owner info.repo (baseTreeOf deps.remote)
        (blobEntries deps.remote deps.fileBlobs) ∈ out.calls ∧
      ApiCall.createCommit info.owner info.repo
        (composeCommitMessage cfg.commitMessage ctx.nextRelease) (newTreeOf deps)
        [deps.remote.refSha] (authorOf cfg ctx) (committerOf cfg ctx) ∈ out.calls ∧
      ApiCall.updateRef info.owner info.repo info.branch (newCommitShaOf cfg ctx deps) false ∈
        out.calls ∧
      out.result = .committed (newCommitShaOf cfg ctx deps) ∧
      (∀ nr, ctx.nextRelease = some nr →
        out.nextRelease = some { nr with gitHead := newCommitShaOf cfg ctx deps }) := by
  simp only [prepare, hTok, hInfo, prepareWithInfo]
  rw [if_neg (by simpa [List.length_eq_zero] using hne), hdry]
  simp only [Bool.false_eq_true, if_false, commitPhase, if_neg hNe, hSync, if_pos rfl]
  refine ⟨_, rfl, ?_, ?_, ?_, ?_, ?_, ?_, ?_, rfl, ?_⟩
  · rw [← hlen]
    simp [List.countP_append, List.countP_cons, ApiCall.isCreateBlob,
      countP_map_true (l := deps.fileBlobs)
        (f := fun b => ApiCall.createBlob info.owner info.repo b.content b.encoding)
        (p := ApiCall.isCreateBlob) (fun x _ => rfl)]
  · simp [List.countP_append, List.countP_cons, ApiCall.isCreateTree,
      countP_map_false (l := deps.fileBlobs)
        (f := fun b => ApiCall.createBlob info.owner info.repo b.content b.encoding)
        (p := ApiCall.isCreateTree) (fun x _ => rfl)]
  · simp [List.countP_append, List.countP_cons, ApiCall.isCreateCommit,
      countP_map_false (l := deps.fileBlobs)
        (f := fun b => ApiCall.createBlob info.owner info.repo b.content b.encoding)
        (p := ApiCall.isCreateCommit) (fun x _ => rfl)]
  · simp [List.countP_append, List.countP_cons, ApiCall.isUpdateRef,
      countP_map_false (l := deps.fileBlobs)
        (f := fun b => ApiCall.createBlob info.owner info.repo b.content b.encoding)
        (p := ApiCall.isUpdateRef) (fun x _ => rfl)]
  · simp
  · simp
  · simp
  · intro nr h
    rw [h]
    rfl

/-- C1 witness: the fixture run that creates two blobs, one tree, one commit
with parent `abc123`, and fast-forwards the ref to `commit456`. -/
theorem C1_end_to_end_witness :
    ∃ out, prepare { files := ["dist/**", "CHANGELOG.md"] } ctxMain depsMain = .ok out ∧
      out.calls.countP ApiCall.isCreateBlob = depsMain.filePaths.length ∧
      out.calls.countP ApiCall.isCreateTree = 1 ∧
      out.calls.countP ApiCall.isCreateCommit = 1 ∧
      out.calls.countP ApiCall.isUpdateRef = 1 ∧
      ApiCall.createTree infoMain.owner infoMain.repo (baseTreeOf depsMain.remote)
        (blobEntries depsMain.remote depsMain.fileBlobs) ∈ out.calls ∧
      ApiCall.createCommit infoMain.owner infoMain.repo
        (composeCommitMessage ({ files := ["dist/**", "CHANGELOG.md"] } : PluginConfig).commitMessage
          ctxMain.nextRelease)
        (newTreeOf depsMain) [depsMain.remote.refSha]
        (authorOf { files := ["dist/**", "CHANGELOG.md"] } ctxMain)
        (committerOf { files := ["dist/**", "CHANGELOG.md"] } ctxMain) ∈ out.calls ∧
      ApiCall.updateRef infoMain.owner infoMain.repo infoMain.branch
        (newCommitShaOf { files := ["dist/**", "CHANGELOG.md"] } ctxMain depsMain) false ∈
        out.calls ∧
      out.result = .committed (newCommitShaOf { files := ["dist/**", "CHANGELOG.md"] } ctxMain depsMain) ∧
      (∀ nr, ctxMain.nextRelease = some nr →
        out.nextRelease = some { nr with
          gitHead := newCommitShaOf { files := ["dist/**", "CHANGELOG.md"] } ctxMain depsMain }) :=
  C1_end_to_end { files := ["dist/**", "CHANGELOG.md"] } ctxMain depsMain
    "tok" infoMain (by decide) (by decide) (by decide) rfl (by decide) (by decide) rfl

/-- C4: per role, identity resolution prefers a configured name+email pair,
falls back to the GIT_ROLE_NAME / GIT_ROLE_EMAIL environment pair, suppresses
exactly the semantic-release bot pair, is absent when name and email are not
both present, and returns any other concrete pair (including the bot name with
a different email) as-is. -/
theorem C4_identity_resolution (role : Role) :
    (∀ (env : Env) (n e : String), n ≠ "" → e ≠ "" →
      getGitIdentity env role (some n) (some e) =
        if n = botName ∧ e = botEmail then none else some ⟨n, e⟩) ∧
    (∀ (env : Env) (n e : String),
      env ("GIT_" ++ role.upper ++ "_NAME") = some n →
      env ("GIT_" ++ role.upper ++ "_EMAIL") = some e →
      n ≠ "" → e ≠ "" →
      getGitIdentity env role none none =
        if n = botName ∧ e = botEmail then none else some ⟨n, e⟩) ∧
    (∀ env : Env, env ("GIT_" ++ role.upper ++ "_NAME") = none →
      getGitIdentity env role none none = none) ∧
    (∀ env : Env, env ("GIT_" ++ role.upper ++ "_EMAIL") = none →
      getGitIdentity env role none none = none) := by
  refine ⟨?_, ?_, ?_, ?_⟩
  · intro env n e hn he
    simp only [getGitIdentity, jsOr_some hn, jsOr_some he]
    by_cases hb : n = botName ∧ e = botEmail
    · rw [if_pos (by simp [hb.1, hb.2]), if_pos hb]
    · rw [if_neg (by simpa using hb), if_neg hb]
      simp [hn, he]
  · intro env n e hname hemail hn he
    simp only [getGitIdentity, jsOr_none, hname, hemail]
    by_cases hb : n = botName ∧ e = botEmail
    · rw [if_pos (by simp [hb.1, hb.2]), if_pos hb]
    · rw [if_neg (by simpa using hb), if_neg hb]
      simp [hn, he]
  · intro env hname
    simp only [getGitIdentity, jsOr_none, hname]
    cases hE : env ("GIT_" ++ role.upper ++ "_EMAIL") <;> simp
  · intro env hemail
    simp only [getGitIdentity, jsOr_none, hemail]
    cases hN : env ("GIT_" ++ role.upper ++ "_NAME") <;> simp

/-- C4 witness: the bot pair from the environment is suppressed, and a
configured ordinary pair is returned as-is. -/
theorem C4_identity_resolution_witness :
    getGitIdentity envBot .author none none = none ∧
    getGitIdentity envBot .author (some "Jane") (some "jane@example.com") =
      some ⟨"Jane", "jane@example.com"⟩ := by
  constructor
  · have h := (C4_identity_resolution .author).2.1 envBot botName botEmail
      (by decide) (by decide) (by decide) (by decide)
    simpa using h
  · have h := (C4_identity_resolution .author).1 envBot "Jane" "jane@example.com"
      (by decide) (by decide)
    simpa using h

/-- C7: branch resolution strictly prefers the ref-style environment variable
(with refs/heads/ stripped) and the CI branch variable (with origin/
stripped) over the plain branch-name variable, which beats the configured
branch list (string or named entries); with no source at all the run fails
with the ENOBRANCH error instead of defaulting. -/
theorem C7_branch_precedence :
    (∀ (env : Env) (branches : Option (List BranchEntry)) (b : String),
      env "GITHUB_REF" = some ("refs/heads/" ++ b) → b ≠ "" →
      getRepoInfo (ctxBr env branches) = .ok ⟨"owner", "repo", b, "github.com"⟩) ∧
    (∀ (env : Env) (branches : Option (List BranchEntry)) (b : String),
      env "GITHUB_REF" = none → env "GIT_BRANCH" = some ("origin/" ++ b) → b ≠ "" →
      getRepoInfo (ctxBr env branches) = .ok ⟨"owner", "repo", b, "github.com"⟩) ∧
    (∀ (env : Env) (branches : Option (List BranchEntry)) (b : String),
      env "GITHUB_REF" = none → env "GIT_BRANCH" = none → env "BRANCH_NAME" = some b →
      b ≠ "" →
      getRepoInfo (ctxBr env branches) = .ok ⟨"owner", "repo", b, "github.com"⟩) ∧
    (∀ (env : Env) (rest : List BranchEntry) (b : String),
      env "GITHUB_REF" = none → env "GIT_BRANCH" = none → env "BRANCH_NAME" = none → b ≠ "" →
      getRepoInfo (ctxBr env (some (.str b :: rest))) = .ok ⟨"owner", "repo", b, "github.com"⟩ ∧
      getRepoInfo (ctxBr env (some (.named b :: rest))) =
        .ok ⟨"owner", "repo", b, "github.com"⟩) ∧
    (∀ env : Env,
      env "GITHUB_REF" = none → env "GIT_BRANCH" = none → env "BRANCH_NAME" = none →
      getRepoInfo (ctxBr env none) = .error ⟨"ENOBRANCH", noBranchMessage⟩ ∧
      getRepoInfo (ctxBr env (some [])) = .error ⟨"ENOBRANCH", noBranchMessage⟩) := by
  have hparse : parseRepositoryUrl "https://github.com/owner/repo.git" =
      .ok ⟨"owner", "repo", "github.com"⟩ := by decide
  refine ⟨?_, ?_, ?_, ?_, ?_⟩
  · intro env branches b hG hb
    simp [getRepoInfo, ctxBr, hparse, hG, replaceOnce_self, jsOr, truthy, hb]
  · intro env branches b hG hB hb
    simp [getRepoInfo, ctxBr, hparse, hG, hB, replaceOnce_self, jsOr, truthy, hb]
  · intro env branches b hG hB hN hb
    simp [getRepoInfo, ctxBr, hparse, hG, hB, hN, jsOr, truthy, hb]
  · intro env rest b hG hB hN hb
    constructor <;>
      simp [getRepoInfo, ctxBr, hparse, hG, hB, hN, jsOr, truthy, hb]
  · intro env hG hB hN
    constructor <;>
      simp [getRepoInfo, ctxBr, hparse, hG, hB, hN, jsOr, truthy]

/-- C7 witness: GITHUB_REF set to refs/heads/main wins over a configured
branch list naming dev. -/
theorem C7_branch_precedence_witness :
    getRepoInfo (ctxBr envRef (some [.str "dev"])) =
      .ok ⟨"owner", "repo", "main", "github.com"⟩ :=
  C7_branch_precedence.1 envRef (some [.str "dev"]) "main" (by decide) (by decide)

/-- C5 counterexample: the SCP-style locator `github.com:owner/repo` — the
form without the `user@` prefix — does not parse: the standard URL parser
accepts `github.com` as a scheme, extracts no host, and the function raises
the unparseable-repository-locator error instead of returning
`{owner, repo, github.com}`. -/
theorem C5_scp_counterexample :
    parseRepositoryUrl "github.com:owner/repo" =
      .error ⟨"ENOREPO", "Unable to parse repository URL: github.com:owner/repo"⟩ := by
  decide

/-- C5 (amended): an SCP-style locator with the `user@` prefix parses to that
owner, repo, and the host after the `@` (with or without `.git`); without the
prefix, the bare `host:owner/repo` form parses that way only when the host is
not a syntactically valid URL scheme — when the host is a valid, non-special
scheme (as any ordinary dotted hostname is), the standards-URL parse consumes
the string with an empty hostname and the unparseable-locator error is
raised. -/
theorem C5_scp_parsing_amended
    (user host owner repo : List Char)
    (huser : ∀ c ∈ user, scpClass c = true ∧ c ≠ '@')
    (hhost : ∀ c ∈ host, scpClass c = true ∧ c ≠ '@') (hhostne : host ≠ [])
    (howner : ∀ c ∈ owner, c ≠ '/' ∧ notQF c = true) (hownerne : owner ≠ [])
    (hrepo : ∀ c ∈ repo, c ≠ '/' ∧ notQF c = true) (hrepone : repo ≠ [])
    (hnogit : ¬ (gitSuffix <:+ repo)) :
    (parseRepositoryUrl ⟨(user ++ '@' :: host) ++ ':' :: (owner ++ '/' :: repo)⟩ =
       .ok ⟨⟨owner⟩, ⟨repo⟩, ⟨host⟩⟩) ∧
    (parseRepositoryUrl ⟨((user ++ '@' :: host) ++ ':' :: (owner ++ '/' :: repo)) ++ gitSuffix⟩ =
       .ok ⟨⟨owner⟩, ⟨repo⟩, ⟨host⟩⟩) ∧
    (validScheme host = false →
      parseRepositoryUrl ⟨host ++ ':' :: (owner ++ '/' :: repo)⟩ =
        .ok ⟨⟨owner⟩, ⟨repo⟩, ⟨host⟩⟩) ∧
    (validScheme host = true → specialSchemes.contains ⟨host.map Char.toLower⟩ = false →
      ∃ msg, parseRepositoryUrl ⟨host ++ ':' :: (owner ++ '/' :: repo)⟩ =
        .error ⟨"ENOREPO", msg⟩) := by
  have hcore1 := parseSanitized_scp_user user host owner repo huser hhost hhostne howner
    hownerne hrepo hrepone
  refine ⟨?_, ?_, ?_, ?_⟩
  · have hre : (user ++ '@' :: host) ++ ':' :: (owner ++ '/' :: repo) =
        ((user ++ '@' :: host) ++ ':' :: owner) ++ '/' :: repo := by simp
    have hng : ¬ (gitSuffix <:+ (user ++ '@' :: host) ++ ':' :: (owner ++ '/' :: repo)) := by
      rw [hre]
      exact not_suffix_sep (by decide) hnogit
    simp only [parseRepositoryUrl, parseRepoL, strMk, stripGit_id hng, hcore1]
  · simp only [parseRepositoryUrl, parseRepoL, strMk, stripGit_of_suffix, hcore1]
  · intro hvs
    have hcore3 := parseSanitized_scp_bare_invalid host owner repo hhost hhostne howner
      hownerne hrepo hrepone hvs
    have hre : host ++ ':' :: (owner ++ '/' :: repo) =
        (host ++ ':' :: owner) ++ '/' :: repo := by simp
    have hng : ¬ (gitSuffix <:+ host ++ ':' :: (owner ++ '/' :: repo)) := by
      rw [hre]
      exact not_suffix_sep (by decide) hnogit
    simp only [parseRepositoryUrl, parseRepoL, strMk, stripGit_id hng, hcore3]
  · intro hvs hns
    have hcore4 := parseSanitized_scp_bare_valid host owner repo hhost howner hownerne
      hrepo hrepone hvs hns
    have hre : host ++ ':' :: (owner ++ '/' :: repo) =
        (host ++ ':' :: owner) ++ '/' :: repo := by simp
    have hng : ¬ (gitSuffix <:+ host ++ ':' :: (owner ++ '/' :: repo)) := by
      rw [hre]
      exact not_suffix_sep (by decide) hnogit
    refine ⟨"Unable to parse repository URL: " ++ ⟨host ++ ':' :: (owner ++ '/' :: repo)⟩, ?_⟩
    simp only [parseRepositoryUrl, parseRepoL, strMk, stripGit_id hng, hcore4]

/-- C5 witness: `git@github.com:owner/repo` parses to owner, repo and host
`github.com` (the user-prefixed branch of the amended claim). -/
theorem C5_scp_parsing_amended_witness :
    parseRepositoryUrl ⟨("git".data ++ '@' :: "github.com".data) ++
        ':' :: ("owner".data ++ '/' :: "repo".data)⟩ =
      .ok ⟨⟨"owner".data⟩, ⟨"repo".data⟩, ⟨"github.com".data⟩⟩ :=
  (C5_scp_parsing_amended "git".data "github.com".data "owner".data "repo".data
    (by decide) (by decide) (by decide) (by decide) (by decide) (by decide) (by decide)
    (by decide)).1

/-- C6: the locator test vectors — the HTTPS, SCP and bare forms give
`{owner, repo, github.com}`, the enterprise URL keeps its host, a URL with
`x-access-token` credentials parses exactly like the same URL without them,
and `invalid-url` raises the unparseable-locator error. -/
theorem C6_locator_cases :
    parseRepositoryUrl "https://github.com/owner/repo.git" =
      .ok ⟨"owner", "repo", "github.com"⟩ ∧
    parseRepositoryUrl "git@github.com:owner/repo.git" =
      .ok ⟨"owner", "repo", "github.com"⟩ ∧
    parseRepositoryUrl "owner/repo" = .ok ⟨"owner", "repo", "github.com"⟩ ∧
    parseRepositoryUrl "https://github.shell.com/Papua/gh-workflows" =
      .ok ⟨"Papua", "gh-workflows", "github.shell.com"⟩ ∧
    (∀ token : List Char, (∀ c ∈ token, c ≠ '@' ∧ c ≠ '/' ∧ c ≠ '?' ∧ c ≠ '#') →
      parseRepositoryUrl ("https://x-access-token:" ++ ⟨token⟩ ++ "@github.com/owner/repo.git") =
        parseRepositoryUrl "https://github.com/owner/repo.git") ∧
    parseRepositoryUrl "invalid-url" =
      .error ⟨"ENOREPO", "Unable to parse repository URL: invalid-url"⟩ := by
  refine ⟨by decide, by decide, by decide, by decide, ?_, by decide⟩
  intro token htok
  have hrhs : parseRepositoryUrl "https://github.com/owner/repo.git" =
      .ok ⟨"owner", "repo", "github.com"⟩ := by decide
  rw [hrhs]
  have hdata : ("https://x-access-token:".data ++ token) ++ "@github.com/owner/repo.git".data =
      ("https".data ++ ':' :: '/' :: '/' ::
        ((("x-access-token:".data ++ token) ++ '@' :: "github.com".data) ++
          '/' :: ("owner".data ++ '/' :: "repo".data))) ++ gitSuffix := by
    rw [show "https://x-access-token:".data =
      "https".data ++ ':' :: '/' :: '/' :: "x-access-token:".data from by decide]
    rw [show "@github.com/owner/repo.git".data =
      ('@' :: ("github.com".data ++ '/' :: ("owner".data ++ '/' :: "repo".data))) ++ gitSuffix
      from by decide]
    simp
  simp only [parseRepositoryUrl, parseRepoL, strData, strMk]
  rw [hdata, stripGit_of_suffix, parseSanitized_creds token htok]

/-- C6 witness: the credentials-invariance part at the concrete token of the
repository's test suite. -/
theorem C6_locator_cases_witness :
    parseRepositoryUrl
        ("https://x-access-token:" ++ ⟨"ghs_123456".data⟩ ++ "@github.com/owner/repo.git") =
      parseRepositoryUrl "https://github.com/owner/repo.git" :=
  C6_locator_cases.2.2.2.2.1 "ghs_123456".data (by decide)

/-- C10: a standards-compliant URL whose path has more than two segments does
not fail and does not take the first two segments: the owner is the
second-to-last segment and the repo the last one. -/
theorem C10_url_many_segments (host : List Char) (pre : List (List Char)) (b c : List Char)
    (hhost : ∀ ch ∈ host, ch ≠ '/' ∧ ch ≠ '?' ∧ ch ≠ '#' ∧ ch ≠ '@' ∧ ch ≠ ':')
    (hhostne : host ≠ [])
    (hsegs : ∀ s ∈ pre ++ [b, c], s ≠ [] ∧ ∀ ch ∈ s, ch ≠ '/' ∧ notQF ch = true)
    (hnogit : ¬ (gitSuffix <:+ c)) :
    parseRepositoryUrl ⟨"https".data ++ ':' :: '/' :: '/' ::
        (host ++ ((pre ++ [b, c]).map (fun s => '/' :: s)).flatten)⟩ =
      .ok ⟨⟨b⟩, ⟨c⟩, ⟨host.map Char.toLower⟩⟩ := by
  have hng : ¬ (gitSuffix <:+ "https".data ++ ':' :: '/' :: '/' ::
      (host ++ ((pre ++ [b, c]).map (fun s => '/' :: s)).flatten)) := by
    have hre : "https".data ++ ':' :: '/' :: '/' ::
        (host ++ ((pre ++ [b, c]).map (fun s => '/' :: s)).flatten) =
        ("https".data ++ ':' :: '/' :: '/' ::
          (host ++ ((pre ++ [b]).map (fun s => '/' :: s)).flatten)) ++ '/' :: c := by
      simp
    rw [hre]
    exact not_suffix_sep (by decide) hnogit
  simp only [parseRepositoryUrl, parseRepoL, strMk, stripGit_id hng,
    parseSanitized_https host pre b c hhost hhostne hsegs]

/-- C10 witness: `https://github.com/a/b/c` parses to owner `b`, repo `c`,
host `github.com`. -/
theorem C10_url_many_segments_witness :
    parseRepositoryUrl ⟨"https".data ++ ':' :: '/' :: '/' ::
        ("github.com".data ++ ((["a".data] ++ ["b".data, "c".data]).map
          (fun s => '/' :: s)).flatten)⟩ =
      .ok ⟨⟨"b".data⟩, ⟨"c".data⟩, ⟨"github.com".data.map Char.toLower⟩⟩ :=
  C10_url_many_segments "github.com".data ["a".data] "b".data "c".data
    (by decide) (by decide) (by decide) (by decide)

end SRGC
